import Mathlib

/-!
Verification of the LinkUpdater utility (src/link_updater_V2.py).

The script is embedded shallowly:
* file contents are raw byte lists (`Bytes`); the lossy UTF-8 text decoding
  (`errors='ignore'`) and the UTF-8 re-encoding on write are abstracted as a
  `Codec` record, so every theorem quantified over a codec holds for the real
  UTF-8 pair in particular;
* Python `str.replace` / `str.count` (left-to-right, non-overlapping) are
  modelled on `List Char` by `replaceAll` / `countOcc`; both use an explicit
  fuel argument equal to the scanned list's length so that they are structural
  and evaluate inside the kernel (each scanning step consumes at least one
  character, so that fuel is always sufficient -- proved by the fuel lemmas);
* the filesystem is an association list from paths to bytes; `os.walk`'s
  enumeration of the tree is the list of entries of that association list;
* per-file IO failures (read, backup creation, write) are injected through an
  `Errs` record of failure oracles; the `try/except` of `process_file` becomes
  the corresponding early returns.
-/
set_option maxRecDepth 8000

namespace LinkUpdater

/-- Paths are modelled as their character lists. -/
abbrev Path := List Char

/-- Raw file contents: a list of byte values. -/
abbrev Bytes := List Nat

/-- Does the list `s` start with the pattern `pat`? (the check performed at
each scan position by Python `str.replace` / `str.count`). -/
def startsWith : List Char → List Char → Bool
  | [], _ => true
  | _ :: _, [] => false
  | a :: pat, b :: s => if a = b then startsWith pat s else false

/-- One fuel-indexed scanning pass of Python `str.replace(old, new)`:
at each position, if the remaining text starts with `old` (and `old` is
non-empty), emit `new` and skip `old.length` characters, otherwise copy one
character.  Fuel only decreases by one per step; `replaceAll` supplies
`s.length`, which suffices because every step consumes at least one
character. -/
def replaceAllGo (old new : List Char) : Nat → List Char → List Char
  | _, [] => []
  | 0, c :: rest => c :: rest
  | fuel + 1, c :: rest =>
    if old ≠ [] ∧ startsWith old (c :: rest) = true then
      new ++ replaceAllGo old new fuel ((c :: rest).drop old.length)
    else
      c :: replaceAllGo old new fuel rest

/-- Python `content.replace(old_ip, new_ip)` (line 94 of the script), for a
non-empty pattern; Python's special behaviour on an empty pattern is not
modelled because validated IP strings are never empty. -/
def replaceAll (old new s : List Char) : List Char :=
  replaceAllGo old new s.length s

/-- Fuel-indexed scanning pass of Python `str.count` (non-overlapping,
left to right), with the same fuel discipline as `replaceAllGo`. -/
def countOccGo (pat : List Char) : Nat → List Char → Nat
  | _, [] => 0
  | 0, _ :: _ => 0
  | fuel + 1, c :: rest =>
    if pat ≠ [] ∧ startsWith pat (c :: rest) = true then
      countOccGo pat fuel ((c :: rest).drop pat.length) + 1
    else
      countOccGo pat fuel rest

/-- Python `content.count(pat)` (line 97 of the script), for a non-empty
pattern. -/
def countOcc (pat s : List Char) : Nat :=
  countOccGo pat s.length s

/-- Abstract text codec standing for the script's `open(..., encoding='utf-8',
errors='ignore')` read (a lossy decode that silently drops undecodable byte
sequences, line 88) and the `encoding='utf-8'` write (line 111).  Theorems
quantify over the codec, so they hold for the actual UTF-8 pair. -/
structure Codec where
  decode : Bytes → List Char
  encode : List Char → Bytes

/-- Per-path IO failure oracles, injecting the exceptions that the
`try/except` of `process_file` (lines 86-121) can catch: a failure when
opening/reading the file, when creating the backup (`backup_file` re-raises,
lines 80-82), and when opening/writing the file back. -/
structure Errs where
  readFails : Path → Bool
  backupFails : Path → Bool
  writeFails : Path → Bool

/-- The no-failure oracle: every IO operation succeeds. -/
def Errs.none : Errs :=
  { readFails := fun _ => false, backupFails := fun _ => false, writeFails := fun _ => false }

/-- The filesystem under the root directory: an association list from paths
to raw contents, in `os.walk` enumeration order. -/
structure FS where
  files : List (Path × Bytes)
deriving DecidableEq

def lookupBytes : List (Path × Bytes) → Path → Option Bytes
  | [], _ => none
  | (q, b) :: rest, p => if q = p then some b else lookupBytes rest p

def storeBytes : List (Path × Bytes) → Path → Bytes → List (Path × Bytes)
  | [], p, b => [(p, b)]
  | (q, c) :: rest, p, b => if q = p then (p, b) :: rest else (q, c) :: storeBytes rest p b

/-- Read a file's raw bytes; `none` when the path does not exist. -/
def FS.read? (fs : FS) (p : Path) : Option Bytes :=
  lookupBytes fs.files p

/-- Overwrite (or create) a file with the given raw bytes. -/
def FS.write (fs : FS) (p : Path) (b : Bytes) : FS :=
  ⟨storeBytes fs.files p b⟩

/-- The run statistics of the `LinkUpdater` object (lines 33-35).
`replacements_made` is an `Int` because the per-file count added at line 101
is a difference of two Python `str.count` values and can be negative. -/
structure Stats where
  files_processed : Nat
  files_modified : Nat
  replacements_made : Int
deriving DecidableEq

/-- The configuration held by a constructed `LinkUpdater` object (lines
26-38); the root directory itself is abstracted into `Env` and `FS`. -/
structure Config where
  old_ip : List Char
  new_ip : List Char
  extensions : List (List Char)
  backup : Bool
  dry_run : Bool

/-- Facts about the root directory argument, as observed by
`Path.exists()` and `Path.is_dir()` (lines 47-51), plus the ambient codec
and IO failure oracles. -/
structure Env where
  dirExists : Bool
  dirIsDir : Bool
  codec : Codec
  errs : Errs

/-- One dot-separated group of the IP pattern: `[0-9]{1,3}` (1 to 3 ASCII
digits). -/
def isIpGroup (g : List Char) : Bool :=
  decide (1 ≤ g.length) && decide (g.length ≤ 3) && g.all Char.isDigit

/-- Python `s.split('.')` on character lists. -/
def splitOnDot : List Char → List (List Char)
  | [] => [[]]
  | c :: rest =>
    if c = '.' then [] :: splitOnDot rest
    else
      match splitOnDot rest with
      | [] => [[c]]
      | g :: gs => (c :: g) :: gs

/-- The language of the regex `(?:[0-9]{1,3}\.){3}[0-9]{1,3}` anchored at
both ends: exactly four dot-separated groups of 1-3 ASCII digits.  Encoded
via `splitOnDot`, which is equivalent because the groups contain no dots. -/
def ipShapeCore (s : List Char) : Bool :=
  decide ((splitOnDot s).length = 4) && (splitOnDot s).all isIpGroup

/-- Python `re.match(r'^(?:[0-9]{1,3}\.){3}[0-9]{1,3}$', s)` as a Boolean
(line 54-58).  Python's `$` matches at the end of the string or just before
a newline at the end of the string, so a single trailing `'\n'` after the
dotted quad is also accepted. -/
def reMatchIp (s : List Char) : Bool :=
  ipShapeCore s || (decide (s.getLast? = some '\n') && ipShapeCore s.dropLast)

/-- Reasons `validate_inputs` raises `ValueError`, in source order
(lines 45-62). -/
inductive ValidationError where
  | dirMissing
  | notADir
  | badOldIp
  | badNewIp
  | sameIp
deriving DecidableEq

instance instDecEqExcept {ε α : Type} [DecidableEq ε] [DecidableEq α] :
    DecidableEq (Except ε α) := fun a b =>
  match a, b with
  | Except.ok x, Except.ok y =>
    if h : x = y then isTrue (by rw [h])
    else isFalse (by intro heq; injection heq; contradiction)
  | Except.error x, Except.error y =>
    if h : x = y then isTrue (by rw [h])
    else isFalse (by intro heq; injection heq; contradiction)
  | Except.ok _, Except.error _ => isFalse (by intro heq; injection heq)
  | Except.error _, Except.ok _ => isFalse (by intro heq; injection heq)

/-- Model of `LinkUpdater.validate_inputs` (lines 45-62): directory
existence, directory-ness, the two regex checks, then equality of the IPs.
The first failing check raises. -/
def validate_inputs (dirExists dirIsDir : Bool) (old_ip new_ip : List Char) :
    Except ValidationError Unit :=
  if dirExists = false then Except.error ValidationError.dirMissing
  else if dirIsDir = false then Except.error ValidationError.notADir
  else if reMatchIp old_ip = false then Except.error ValidationError.badOldIp
  else if reMatchIp new_ip = false then Except.error ValidationError.badNewIp
  else if old_ip = new_ip then Except.error ValidationError.sameIp
  else Except.ok ()

/-- Basename of a path: the part after the last `'/'` (the `file` component
produced by `os.walk`). -/
def baseName (p : Path) : List Char :=
  (p.reverse.takeWhile (fun c => c ≠ '/')).reverse

/-- Python `pathlib.Path(name).suffix`: the part of the basename from its
last dot `i` onward, provided `0 < i < len(name) - 1`; empty otherwise.
Computed from the reversed name: `j` is the distance of the last dot from
the end (`i = len - 1 - j`). -/
def pySuffix (name : List Char) : List Char :=
  let r := name.reverse
  let j := r.findIdx (fun c => c = '.')
  if j < r.length ∧ 0 < j ∧ j < r.length - 1 then (r.take (j + 1)).reverse else []

/-- Does a file's extension (lower-cased suffix of its basename) belong to
the configured extension list?  (lines 69-70). -/
def extMatches (exts : List (List Char)) (p : Path) : Bool :=
  decide ((pySuffix (baseName p)).map Char.toLower ∈ exts)

/-- Model of `LinkUpdater.find_target_files` (lines 64-72): the files of
the tree, in walk order, whose lower-cased extension is configured. -/
def find_target_files (exts : List (List Char)) (fs : FS) : List Path :=
  (fs.files.filter (fun pb => extMatches exts pb.1)).map Prod.fst

/-- The backup path: `file_path.with_suffix(file_path.suffix + '.bak')`
(line 76).  Replacing the suffix `suf` by `suf ++ ".bak"` always appends
`".bak"` to the original name, whether or not the suffix is empty. -/
def backupPath (p : Path) : Path :=
  p ++ ".bak".toList

/-- Model of `LinkUpdater.backup_file` (lines 74-82): copy the file's raw
bytes (`read_bytes`/`write_bytes`) to the backup path. -/
def backup_file (fs : FS) (p : Path) : FS :=
  match fs.read? p with
  | some b => fs.write (backupPath p) b
  | none => fs

/-- Model of `LinkUpdater.process_file` (lines 84-121) on a filesystem and
statistics pair.  The `try` body reads the file, replaces the old IP,
computes the approximate per-file replacement count, and in the modified
case bumps the counters before doing any IO; the `except` arm (reached via
the `Errs` oracles) logs and returns, skipping the trailing
`files_processed += 1`. -/
def process_file (cfg : Config) (codec : Codec) (errs : Errs) (p : Path)
    (s : FS × Stats) : FS × Stats :=
  let fs := s.1
  let st := s.2
  if errs.readFails p then (fs, st)
  else
    match fs.read? p with
    | none => (fs, st)
    | some b =>
      let original_content := codec.decode b
      let content := replaceAll cfg.old_ip cfg.new_ip original_content
      let file_replacements : Int :=
        (countOcc cfg.new_ip content : Int) - (countOcc cfg.new_ip original_content : Int)
      if content ≠ original_content then
        let st1 : Stats :=
          { st with files_modified := st.files_modified + 1,
                    replacements_made := st.replacements_made + file_replacements }
        if cfg.dry_run then
          (fs, { st1 with files_processed := st1.files_processed + 1 })
        else if cfg.backup ∧ errs.backupFails p then
          (fs, st1)
        else
          let fs1 := if cfg.backup then backup_file fs p else fs
          if errs.writeFails p then
            (fs1, st1)
          else
            (fs1.write p (codec.encode content),
             { st1 with files_processed := st1.files_processed + 1 })
      else
        (fs, { st with files_processed := st.files_processed + 1 })

/-- The processing loop of `run` (lines 145-146), in discovery order. -/
def processFiles (cfg : Config) (codec : Codec) (errs : Errs) :
    List Path → FS × Stats → FS × Stats
  | [], s => s
  | p :: rest, s => processFiles cfg codec errs rest (process_file cfg codec errs p s)

/-- Outcome of one invocation: final filesystem, final counters, process
exit code, and whether the zero-files warning was emitted. -/
structure RunResult where
  fs : FS
  stats : Stats
  exitCode : Nat
  warnedNoFiles : Bool
deriving DecidableEq

/-- Model of `LinkUpdater.run` (lines 123-163): validation failure is caught
and exits with code 1; an empty target list warns and returns normally;
otherwise every discovered file is processed and the run exits with code 0
(per-file errors are already absorbed inside `process_file`). -/
def run (cfg : Config) (env : Env) (fs : FS) : RunResult :=
  match validate_inputs env.dirExists env.dirIsDir cfg.old_ip cfg.new_ip with
  | Except.error _ => ⟨fs, ⟨0, 0, 0⟩, 1, false⟩
  | Except.ok _ =>
    match find_target_files cfg.extensions fs with
    | [] => ⟨fs, ⟨0, 0, 0⟩, 0, true⟩
    | p :: rest =>
      let out := processFiles cfg env.codec env.errs (p :: rest) (fs, ⟨0, 0, 0⟩)
      ⟨out.1, out.2, 0, false⟩

/-- The default extension list `['.html', '.htm']` (lines 30 and 181). -/
def defaultExtensions : List (List Char) :=
  [".html".toList, ".htm".toList]

/-- Line 37: `ext if ext.startswith('.') else f'.{ext}'`. -/
def ensureDot (ext : List Char) : List Char :=
  if ext.head? = some '.' then ext else '.' :: ext

/-- Model of the extension handling of `LinkUpdater.__init__` (lines 30,
37-38): `extensions or ['.html', '.htm']` (both `None` and the empty list
fall back to the default), then prefix a dot where missing, then
lower-case.  `Char.toLower` matches Python `str.lower` on ASCII. -/
def normalizeExtensions (extensions : Option (List (List Char))) : List (List Char) :=
  let exts :=
    match extensions with
    | none => defaultExtensions
    | some l => if l = [] then defaultExtensions else l
  (exts.map ensureDot).map (fun ext => ext.map Char.toLower)

/-- Model of `LinkUpdater.__init__` (lines 26-38) as far as the
configuration record is concerned. -/
def initConfig (old_ip new_ip : List Char) (extensions : Option (List (List Char)))
    (backup dry_run : Bool) : Config :=
  { old_ip := old_ip, new_ip := new_ip,
    extensions := normalizeExtensions extensions,
    backup := backup, dry_run := dry_run }

/-- A simple codec for concrete witnesses: each byte is a code point. -/
def asciiCodec : Codec :=
  { decode := fun bs => bs.map Char.ofNat, encode := fun cs => cs.map Char.toNat }

/-- A deliberately lossy codec for the backup-fidelity witness: the decoder
silently drops bytes outside the ASCII range, like `errors='ignore'`. -/
def lossyCodec : Codec :=
  { decode := fun bs => (bs.filter (fun v => decide (v < 128))).map Char.ofNat,
    encode := fun cs => cs.map Char.toNat }

/-- ASCII encoding of a literal, for building concrete file contents. -/
def encodeAscii (s : String) : Bytes :=
  s.toList.map Char.toNat

/-- Environment with an existing root directory and no IO failures. -/
def envOk : Env :=
  { dirExists := true, dirIsDir := true, codec := asciiCodec, errs := Errs.none }

/-- The spec's concrete scenario configuration: extensions `[.html]`,
old 10.0.0.1, new 10.0.0.2, backups on, not a dry run. -/
def cfgSpec : Config :=
  { old_ip := "10.0.0.1".toList, new_ip := "10.0.0.2".toList,
    extensions := [".html".toList], backup := true, dry_run := false }

/-- The spec's concrete scenario tree: `a.html` and `b.txt`, same content. -/
def fsSpec : FS :=
  ⟨[("a.html".toList, encodeAscii "Server at 10.0.0.1 ready"),
    ("b.txt".toList, encodeAscii "Server at 10.0.0.1 ready")]⟩

/-- Configuration where the new IP overlaps the context of the only
occurrence of the old IP. -/
def cfgOverlap : Config :=
  { old_ip := "1.1.1.1".toList, new_ip := "11.1.1.1".toList,
    extensions := [".html".toList], backup := true, dry_run := false }

/-- One file whose content `11.1.1.1` contains `1.1.1.1` exactly once. -/
def fsOverlap : FS :=
  ⟨[("a.html".toList, encodeAscii "11.1.1.1")]⟩

/-- Configuration where a replacement recreates the old IP across the
boundary with the following text. -/
def cfgRecreate : Config :=
  { old_ip := "1.1.1.1".toList, new_ip := "2.2.2.1".toList,
    extensions := [".html".toList], backup := true, dry_run := false }

/-- One file with content `1.1.1.1.1.1.1`: after one replacement pass the
content is `2.2.2.1.1.1.1`, which still contains `1.1.1.1`. -/
def fsRecreate : FS :=
  ⟨[("a.html".toList, encodeAscii "1.1.1.1.1.1.1")]⟩

/-- Failure oracle: writing `a.html` back raises; everything else works. -/
def errsWriteA : Errs :=
  { readFails := fun _ => false, backupFails := fun _ => false,
    writeFails := fun p => decide (p = "a.html".toList) }

/-- Failure oracle: creating the backup of `a.html` raises. -/
def errsBackupA : Errs :=
  { readFails := fun _ => false,
    backupFails := fun p => decide (p = "a.html".toList),
    writeFails := fun _ => false }

/-- Failure oracle: reading `a.html` raises. -/
def errsReadA : Errs :=
  { readFails := fun p => decide (p = "a.html".toList),
    backupFails := fun _ => false, writeFails := fun _ => false }

/-- Environment whose only IO failure is the write of `a.html`. -/
def envWriteA : Env :=
  { dirExists := true, dirIsDir := true, codec := asciiCodec, errs := errsWriteA }

/-- Plain no-backup configuration used by error-path scenarios. -/
def cfgPlain : Config :=
  { old_ip := "1.2.3.4".toList, new_ip := "5.6.7.8".toList,
    extensions := [".html".toList], backup := false, dry_run := false }

/-- Like `cfgPlain` but with backups enabled. -/
def cfgPlainBak : Config :=
  { old_ip := "1.2.3.4".toList, new_ip := "5.6.7.8".toList,
    extensions := [".html".toList], backup := true, dry_run := false }

/-- Dry-run variant of `cfgPlainBak`. -/
def cfgDry : Config :=
  { old_ip := "1.2.3.4".toList, new_ip := "5.6.7.8".toList,
    extensions := [".html".toList], backup := true, dry_run := true }

/-- Two matching files, both containing the old IP of `cfgPlain`. -/
def fsTwo : FS :=
  ⟨[("a.html".toList, encodeAscii "x 1.2.3.4"),
    ("b.html".toList, encodeAscii "y 1.2.3.4")]⟩

/-- A file whose raw bytes start with the undecodable byte 200, followed by
the ASCII text `1.2.3.4`. -/
def fsHighByte : FS :=
  ⟨[("a.html".toList, 200 :: encodeAscii " 1.2.3.4")]⟩

/-- A tree with no file matching the `.html` extension. -/
def fsOnlyTxt : FS :=
  ⟨[("b.txt".toList, encodeAscii "Server at 10.0.0.1 ready")]⟩

/-- A tree whose only file contains no occurrence of `1.1.1.1`. -/
def fsClean : FS :=
  ⟨[("a.html".toList, encodeAscii "2.2.2.1 server")]⟩

theorem startsWith_length : ∀ pat s, startsWith pat s = true → pat.length ≤ s.length := by
  intro pat
  induction pat with
  | nil => intro s _; simp
  | cons a pat ih =>
    intro s h
    cases s with
    | nil => simp [startsWith] at h
    | cons b s =>
      simp only [startsWith] at h
      split at h
      · simpa using ih s h
      · simp at h

theorem startsWith_take : ∀ pat s, startsWith pat s = true → s.take pat.length = pat := by
  intro pat
  induction pat with
  | nil => intro s _; simp
  | cons a pat ih =>
    intro s h
    cases s with
    | nil => simp [startsWith] at h
    | cons b s =>
      simp only [startsWith] at h
      split at h
      · rename_i heq
        simp [List.take, heq, ih s h]
      · simp at h

theorem startsWith_append_drop : ∀ pat s, startsWith pat s = true →
    pat ++ s.drop pat.length = s := by
  intro pat s h
  have ht := startsWith_take pat s h
  conv_rhs => rw [← List.take_append_drop pat.length s]
  rw [ht]

theorem replaceAllGo_fuel (old new : List Char) :
    ∀ f g s, s.length ≤ f → s.length ≤ g →
      replaceAllGo old new f s = replaceAllGo old new g s := by
  intro f
  induction f with
  | zero =>
    intro g s hf _
    have : s = [] := List.eq_nil_of_length_eq_zero (Nat.le_zero.mp hf)
    subst this
    cases g <;> rfl
  | succ f ih =>
    intro g s hf hg
    cases s with
    | nil => cases g <;> rfl
    | cons c rest =>
      cases g with
      | zero => simp at hg
      | succ g =>
        simp only [replaceAllGo]
        split
        · rename_i hcond
          have hlen : old.length ≤ rest.length + 1 := by
            simpa using startsWith_length old (c :: rest) hcond.2
          have h1 : 1 ≤ old.length := List.length_pos.mpr hcond.1
          have hdrop : ((c :: rest).drop old.length).length ≤ rest.length := by
            simp only [List.length_drop, List.length_cons]
            omega
          rw [ih g _ (le_trans hdrop (by simpa using Nat.succ_le_succ_iff.mp hf))
            (le_trans hdrop (by simpa using Nat.succ_le_succ_iff.mp hg))]
        · rw [ih g rest (by simpa using Nat.succ_le_succ_iff.mp hf)
            (by simpa using Nat.succ_le_succ_iff.mp hg)]

theorem countOccGo_fuel (pat : List Char) :
    ∀ f g s, s.length ≤ f → s.length ≤ g →
      countOccGo pat f s = countOccGo pat g s := by
  intro f
  induction f with
  | zero =>
    intro g s hf _
    have : s = [] := List.eq_nil_of_length_eq_zero (Nat.le_zero.mp hf)
    subst this
    cases g <;> rfl
  | succ f ih =>
    intro g s hf hg
    cases s with
    | nil => cases g <;> rfl
    | cons c rest =>
      cases g with
      | zero => simp at hg
      | succ g =>
        simp only [countOccGo]
        split
        · rename_i hcond
          have hlen : pat.length ≤ rest.length + 1 := by
            simpa using startsWith_length pat (c :: rest) hcond.2
          have h1 : 1 ≤ pat.length := List.length_pos.mpr hcond.1
          have hdrop : ((c :: rest).drop pat.length).length ≤ rest.length := by
            simp only [List.length_drop, List.length_cons]
            omega
          rw [ih g _ (le_trans hdrop (by simpa using Nat.succ_le_succ_iff.mp hf))
            (le_trans hdrop (by simpa using Nat.succ_le_succ_iff.mp hg))]
        · rw [ih g rest (by simpa using Nat.succ_le_succ_iff.mp hf)
            (by simpa using Nat.succ_le_succ_iff.mp hg)]

theorem replaceAll_nil (old new : List Char) : replaceAll old new [] = [] := rfl

theorem replaceAll_cons_pos (old new : List Char) (c : Char) (rest : List Char)
    (h0 : old ≠ []) (h : startsWith old (c :: rest) = true) :
    replaceAll old new (c :: rest) =
      new ++ replaceAll old new ((c :: rest).drop old.length) := by
  have h1 : 1 ≤ old.length := List.length_pos.mpr h0
  unfold replaceAll
  have hlen : (c :: rest).length = rest.length + 1 := rfl
  rw [hlen]
  simp only [replaceAllGo, if_pos (And.intro h0 h)]
  congr 1
  exact replaceAllGo_fuel old new rest.length ((c :: rest).drop old.length).length _
    (by simp only [List.length_drop, List.length_cons]; omega) (le_refl _)

theorem replaceAll_cons_neg (old new : List Char) (c : Char) (rest : List Char)
    (h : ¬(old ≠ [] ∧ startsWith old (c :: rest) = true)) :
    replaceAll old new (c :: rest) = c :: replaceAll old new rest := by
  unfold replaceAll
  have hlen : (c :: rest).length = rest.length + 1 := rfl
  rw [hlen]
  simp only [replaceAllGo, if_neg h]

theorem countOcc_nil (pat : List Char) : countOcc pat [] = 0 := rfl

theorem countOcc_cons_pos (pat : List Char) (c : Char) (rest : List Char)
    (h0 : pat ≠ []) (h : startsWith pat (c :: rest) = true) :
    countOcc pat (c :: rest) = countOcc pat ((c :: rest).drop pat.length) + 1 := by
  have h1 : 1 ≤ pat.length := List.length_pos.mpr h0
  unfold countOcc
  have hlen : (c :: rest).length = rest.length + 1 := rfl
  rw [hlen]
  simp only [countOccGo, if_pos (And.intro h0 h)]
  congr 1
  exact countOccGo_fuel pat rest.length ((c :: rest).drop pat.length).length _
    (by simp only [List.length_drop, List.length_cons]; omega) (le_refl _)

theorem countOcc_cons_neg (pat : List Char) (c : Char) (rest : List Char)
    (h : ¬(pat ≠ [] ∧ startsWith pat (c :: rest) = true)) :
    countOcc pat (c :: rest) = countOcc pat rest := by
  unfold countOcc
  have hlen : (c :: rest).length = rest.length + 1 := rfl
  rw [hlen]
  simp only [countOccGo, if_neg h]

theorem countOcc_empty_pat (s : List Char) : countOcc [] s = 0 := by
  induction s with
  | nil => rfl
  | cons c rest ih =>
    rw [countOcc_cons_neg [] c rest (by simp)]
    exact ih

theorem replaceAll_of_countOcc_zero_aux (old new : List Char) :
    ∀ n s, s.length ≤ n → countOcc old s = 0 → replaceAll old new s = s := by
  intro n
  induction n with
  | zero =>
    intro s hl _
    have : s = [] := List.eq_nil_of_length_eq_zero (Nat.le_zero.mp hl)
    subst this
    rfl
  | succ n ih =>
    intro s hl hc
    cases s with
    | nil => rfl
    | cons c rest =>
      by_cases hcond : old ≠ [] ∧ startsWith old (c :: rest) = true
      · rw [countOcc_cons_pos old c rest hcond.1 hcond.2] at hc
        omega
      · rw [countOcc_cons_neg old c rest hcond] at hc
        rw [replaceAll_cons_neg old new c rest hcond]
        rw [ih rest (by simpa using Nat.succ_le_succ_iff.mp hl) hc]

/-- If the pattern does not occur in `s`, `str.replace` leaves `s` unchanged. -/
theorem replaceAll_of_countOcc_zero (old new s : List Char)
    (hc : countOcc old s = 0) : replaceAll old new s = s :=
  replaceAll_of_countOcc_zero_aux old new s.length s (le_refl _) hc

theorem length_replaceAll_aux (old new : List Char) :
    ∀ n s, s.length ≤ n →
      ((replaceAll old new s).length : Int) =
        s.length + countOcc old s * ((new.length : Int) - old.length) := by
  intro n
  induction n with
  | zero =>
    intro s hl
    have : s = [] := List.eq_nil_of_length_eq_zero (Nat.le_zero.mp hl)
    subst this
    simp [replaceAll_nil, countOcc_nil]
  | succ n ih =>
    intro s hl
    cases s with
    | nil => simp [replaceAll_nil, countOcc_nil]
    | cons c rest =>
      by_cases hcond : old ≠ [] ∧ startsWith old (c :: rest) = true
      · have h1 : 1 ≤ old.length := List.length_pos.mpr hcond.1
        have hlen : old.length ≤ rest.length + 1 := by
          simpa using startsWith_length old (c :: rest) hcond.2
        rw [replaceAll_cons_pos old new c rest hcond.1 hcond.2,
          countOcc_cons_pos old c rest hcond.1 hcond.2]
        have hdl : ((c :: rest).drop old.length).length ≤ n := by
          simp only [List.length_drop, List.length_cons]
          have : rest.length + 1 ≤ n + 1 := by simpa using hl
          omega
        have hrec := ih ((c :: rest).drop old.length) hdl
        rw [List.length_append, Nat.cast_add, hrec]
        have hdlen : (((c :: rest).drop old.length).length : Int) =
            (rest.length : Int) + 1 - old.length := by
          simp only [List.length_drop, List.length_cons]
          omega
        rw [hdlen]
        simp only [List.length_cons]
        push_cast
        ring
      · rw [replaceAll_cons_neg old new c rest hcond,
          countOcc_cons_neg old c rest hcond]
        have hrec := ih rest (by simpa using Nat.succ_le_succ_iff.mp hl)
        simp only [List.length_cons]
        push_cast
        push_cast at hrec
        rw [hrec]
        ring

/-- Length of the result of `str.replace`: each of the `countOcc old s`
replacements changes the length by `new.length - old.length`. -/
theorem length_replaceAll (old new s : List Char) :
    ((replaceAll old new s).length : Int) =
      s.length + countOcc old s * ((new.length : Int) - old.length) :=
  length_replaceAll_aux old new s.length s (le_refl _)

theorem replaceAll_ne_aux (old new : List Char) (h0 : old ≠ []) (hne : old ≠ new) :
    ∀ n s, s.length ≤ n → 0 < countOcc old s → replaceAll old new s ≠ s := by
  intro n
  induction n with
  | zero =>
    intro s hl hc
    have : s = [] := List.eq_nil_of_length_eq_zero (Nat.le_zero.mp hl)
    subst this
    simp [countOcc_nil] at hc
  | succ n ih =>
    intro s hl hc
    cases s with
    | nil => simp [countOcc_nil] at hc
    | cons c rest =>
      by_cases hcond : old ≠ [] ∧ startsWith old (c :: rest) = true
      · by_cases hlen : new.length = old.length
        · intro heq
          rw [replaceAll_cons_pos old new c rest hcond.1 hcond.2] at heq
          have htake : (c :: rest).take old.length = old :=
            startsWith_take old (c :: rest) hcond.2
          have hnew : (new ++ replaceAll old new ((c :: rest).drop old.length)).take new.length
              = new := List.take_left new _
          rw [heq, hlen, htake] at hnew
          exact hne hnew
        · intro heq
          have hlength := length_replaceAll old new (c :: rest)
          have hcnt : countOcc old (c :: rest) =
              countOcc old ((c :: rest).drop old.length) + 1 :=
            countOcc_cons_pos old c rest hcond.1 hcond.2
          rw [heq] at hlength
          have hdiff : ((new.length : Int) - old.length) ≠ 0 := by
            intro habs
            apply hlen
            omega
          have hcount : (0 : Int) < countOcc old (c :: rest) := by
            rw [hcnt]
            push_cast
            omega
          have := mul_ne_zero (by omega : (countOcc old (c :: rest) : Int) ≠ 0) hdiff
          omega
      · rw [countOcc_cons_neg old c rest hcond] at hc
        rw [replaceAll_cons_neg old new c rest hcond]
        intro heq
        have : replaceAll old new rest = rest := by
          injection heq
        exact ih rest (by simpa using Nat.succ_le_succ_iff.mp hl) hc this

/-- If the (non-empty) pattern occurs in `s` and differs from the
replacement, `str.replace` changes `s`. -/
theorem replaceAll_ne (old new s : List Char) (h0 : old ≠ []) (hne : old ≠ new)
    (hc : 0 < countOcc old s) : replaceAll old new s ≠ s :=
  replaceAll_ne_aux old new h0 hne s.length s (le_refl _) hc

theorem lookupBytes_store_self : ∀ l p b, lookupBytes (storeBytes l p b) p = some b := by
  intro l
  induction l with
  | nil => intro p b; simp [storeBytes, lookupBytes]
  | cons qc rest ih =>
    intro p b
    obtain ⟨q, c⟩ := qc
    by_cases h : q = p
    · simp [storeBytes, lookupBytes, h]
    · simp only [storeBytes, lookupBytes, if_neg h]
      exact ih p b

theorem lookupBytes_store_ne : ∀ l p b q, q ≠ p →
    lookupBytes (storeBytes l p b) q = lookupBytes l q := by
  intro l
  induction l with
  | nil =>
    intro p b q hq
    have hpq : ¬ p = q := fun h2 => hq h2.symm
    simp [storeBytes, lookupBytes, hpq]
  | cons rc rest ih =>
    intro p b q hq
    obtain ⟨r, c⟩ := rc
    by_cases h : r = p
    · have hpq : ¬ p = q := fun h2 => hq h2.symm
      have hrq : ¬ r = q := by rw [h]; exact hpq
      simp only [storeBytes, if_pos h, lookupBytes, if_neg hpq, if_neg hrq]
    · simp only [storeBytes, if_neg h, lookupBytes]
      by_cases h2 : r = q
      · simp [h2]
      · simp only [if_neg h2]
        exact ih p b q hq

theorem FS.read?_write_self (fs : FS) (p : Path) (b : Bytes) :
    (fs.write p b).read? p = some b :=
  lookupBytes_store_self fs.files p b

theorem FS.read?_write_ne (fs : FS) (p : Path) (b : Bytes) (q : Path) (hq : q ≠ p) :
    (fs.write p b).read? q = fs.read? q :=
  lookupBytes_store_ne fs.files p b q hq

theorem lookupBytes_mem : ∀ l (p : Path) (b : Bytes),
    lookupBytes l p = some b → (p, b) ∈ l := by
  intro l
  induction l with
  | nil => intro p b h; simp [lookupBytes] at h
  | cons qc rest ih =>
    intro p b h
    obtain ⟨q, c⟩ := qc
    simp only [lookupBytes] at h
    by_cases hqp : q = p
    · rw [if_pos hqp] at h
      injection h with h
      subst hqp
      subst h
      exact List.mem_cons_self _ _
    · rw [if_neg hqp] at h
      exact List.mem_cons_of_mem _ (ih p b h)

theorem FS.read?_mem (fs : FS) (p : Path) (b : Bytes)
    (h : fs.read? p = some b) : (p, b) ∈ fs.files :=
  lookupBytes_mem fs.files p b h

theorem char_toNat_ofNat_valid (v : Nat) (h : v < 55296) : (Char.ofNat v).toNat = v := by
  have hv : v.isValidChar := Or.inl h
  rw [Char.ofNat, dif_pos hv]
  rfl

theorem char_toLower_of_not_upper (c : Char) (h : ¬(65 ≤ c.toNat ∧ c.toNat ≤ 90)) :
    Char.toLower c = c := by
  simp only [Char.toLower, ge_iff_le]
  exact if_neg h

theorem char_toLower_toLower (c : Char) :
    Char.toLower (Char.toLower c) = Char.toLower c := by
  by_cases h : 65 ≤ c.toNat ∧ c.toNat ≤ 90
  · have h1 : Char.toLower c = Char.ofNat (c.toNat + 32) := by
      simp only [Char.toLower, ge_iff_le]
      exact if_pos h
    have h2 : (Char.toLower c).toNat = c.toNat + 32 := by
      rw [h1]
      exact char_toNat_ofNat_valid _ (by omega)
    apply char_toLower_of_not_upper
    rw [h2]
    omega
  · rw [char_toLower_of_not_upper c h, char_toLower_of_not_upper c h]

theorem process_file_read_fail (cfg : Config) (codec : Codec) (errs : Errs) (p : Path)
    (fs : FS) (st : Stats) (hrf : errs.readFails p = true) :
    process_file cfg codec errs p (fs, st) = (fs, st) := by
  simp [process_file, hrf]

theorem process_file_not_found (cfg : Config) (codec : Codec) (errs : Errs) (p : Path)
    (fs : FS) (st : Stats) (hrf : errs.readFails p = false) (hnf : fs.read? p = none) :
    process_file cfg codec errs p (fs, st) = (fs, st) := by
  simp [process_file, hrf, hnf]

theorem process_file_unchanged (cfg : Config) (codec : Codec) (errs : Errs) (p : Path)
    (fs : FS) (st : Stats) (b : Bytes)
    (hrf : errs.readFails p = false) (hread : fs.read? p = some b)
    (hsame : replaceAll cfg.old_ip cfg.new_ip (codec.decode b) = codec.decode b) :
    process_file cfg codec errs p (fs, st) =
      (fs, ⟨st.files_processed + 1, st.files_modified, st.replacements_made⟩) := by
  simp [process_file, hrf, hread, hsame]

theorem process_file_dry (cfg : Config) (codec : Codec) (errs : Errs) (p : Path)
    (fs : FS) (st : Stats) (b : Bytes)
    (hrf : errs.readFails p = false) (hread : fs.read? p = some b)
    (hch : replaceAll cfg.old_ip cfg.new_ip (codec.decode b) ≠ codec.decode b)
    (hdry : cfg.dry_run = true) :
    process_file cfg codec errs p (fs, st) =
      (fs, ⟨st.files_processed + 1, st.files_modified + 1,
            st.replacements_made +
              ((countOcc cfg.new_ip (replaceAll cfg.old_ip cfg.new_ip (codec.decode b)) : Int) -
               (countOcc cfg.new_ip (codec.decode b) : Int))⟩) := by
  simp [process_file, hrf, hread, hch, hdry]

theorem process_file_backup_fail (cfg : Config) (codec : Codec) (errs : Errs) (p : Path)
    (fs : FS) (st : Stats) (b : Bytes)
    (hrf : errs.readFails p = false) (hread : fs.read? p = some b)
    (hch : replaceAll cfg.old_ip cfg.new_ip (codec.decode b) ≠ codec.decode b)
    (hdry : cfg.dry_run = false) (hb : cfg.backup = true) (hbf : errs.backupFails p = true) :
    process_file cfg codec errs p (fs, st) =
      (fs, ⟨st.files_processed, st.files_modified + 1,
            st.replacements_made +
              ((countOcc cfg.new_ip (replaceAll cfg.old_ip cfg.new_ip (codec.decode b)) : Int) -
               (countOcc cfg.new_ip (codec.decode b) : Int))⟩) := by
  simp [process_file, hrf, hread, hch, hdry, hb, hbf]

theorem process_file_write_fail (cfg : Config) (codec : Codec) (errs : Errs) (p : Path)
    (fs : FS) (st : Stats) (b : Bytes)
    (hrf : errs.readFails p = false) (hread : fs.read? p = some b)
    (hch : replaceAll cfg.old_ip cfg.new_ip (codec.decode b) ≠ codec.decode b)
    (hdry : cfg.dry_run = false)
    (hnbf : ¬(cfg.backup = true ∧ errs.backupFails p = true))
    (hwf : errs.writeFails p = true) :
    process_file cfg codec errs p (fs, st) =
      ((if cfg.backup then fs.write (backupPath p) b else fs),
       ⟨st.files_processed, st.files_modified + 1,
        st.replacements_made +
          ((countOcc cfg.new_ip (replaceAll cfg.old_ip cfg.new_ip (codec.decode b)) : Int) -
           (countOcc cfg.new_ip (codec.decode b) : Int))⟩) := by
  simp [process_file, backup_file, hrf, hread, hch, hdry, hnbf, hwf]

theorem process_file_success (cfg : Config) (codec : Codec) (errs : Errs) (p : Path)
    (fs : FS) (st : Stats) (b : Bytes)
    (hrf : errs.readFails p = false) (hread : fs.read? p = some b)
    (hch : replaceAll cfg.old_ip cfg.new_ip (codec.decode b) ≠ codec.decode b)
    (hdry : cfg.dry_run = false)
    (hnbf : ¬(cfg.backup = true ∧ errs.backupFails p = true))
    (hwf : errs.writeFails p = false) :
    process_file cfg codec errs p (fs, st) =
      ((if cfg.backup then fs.write (backupPath p) b else fs).write p
         (codec.encode (replaceAll cfg.old_ip cfg.new_ip (codec.decode b))),
       ⟨st.files_processed + 1, st.files_modified + 1,
        st.replacements_made +
          ((countOcc cfg.new_ip (replaceAll cfg.old_ip cfg.new_ip (codec.decode b)) : Int) -
           (countOcc cfg.new_ip (codec.decode b) : Int))⟩) := by
  simp [process_file, backup_file, hrf, hread, hch, hdry, hnbf, hwf]

theorem processFiles_nil (cfg : Config) (codec : Codec) (errs : Errs) (s : FS × Stats) :
    processFiles cfg codec errs [] s = s := rfl

theorem processFiles_cons (cfg : Config) (codec : Codec) (errs : Errs) (p : Path)
    (rest : List Path) (s : FS × Stats) :
    processFiles cfg codec errs (p :: rest) s =
      processFiles cfg codec errs rest (process_file cfg codec errs p s) := rfl

theorem run_validate_error (cfg : Config) (env : Env) (fs : FS) (e : ValidationError)
    (h : validate_inputs env.dirExists env.dirIsDir cfg.old_ip cfg.new_ip = Except.error e) :
    run cfg env fs = ⟨fs, ⟨0, 0, 0⟩, 1, false⟩ := by
  simp [run, h]

theorem run_no_targets (cfg : Config) (env : Env) (fs : FS)
    (hval : validate_inputs env.dirExists env.dirIsDir cfg.old_ip cfg.new_ip = Except.ok ())
    (h : find_target_files cfg.extensions fs = []) :
    run cfg env fs = ⟨fs, ⟨0, 0, 0⟩, 0, true⟩ := by
  simp [run, hval, h]

theorem run_targets (cfg : Config) (env : Env) (fs : FS) (p : Path) (rest : List Path)
    (hval : validate_inputs env.dirExists env.dirIsDir cfg.old_ip cfg.new_ip = Except.ok ())
    (h : find_target_files cfg.extensions fs = p :: rest) :
    run cfg env fs =
      ⟨(processFiles cfg env.codec env.errs (p :: rest) (fs, ⟨0, 0, 0⟩)).1,
       (processFiles cfg env.codec env.errs (p :: rest) (fs, ⟨0, 0, 0⟩)).2, 0, false⟩ := by
  simp [run, hval, h]

/-- Claim C5, counterexample: the string `1.2.3.4` followed by a newline
does not have the shape of four dot-separated groups of 1-3 digits, yet
`validate_inputs` accepts it as the old IP, because Python's `$` anchor
also matches just before a trailing newline; so validation does not reject
exactly the inputs the claim lists. -/
theorem C5_counterexample :
    validate_inputs true true "1.2.3.4\n".toList "5.6.7.8".toList = Except.ok () ∧
    ipShapeCore "1.2.3.4\n".toList = false :=
  ⟨by decide, by decide⟩

/-- Claim C5 (amended): `validate_inputs` succeeds exactly when the root
exists, is a directory, both IP strings match four dot-separated groups of
1-3 digits optionally followed by one trailing newline (`reMatchIp`, with
no rejection of octets above 255), and the two IPs differ; every other
configuration is rejected. -/
theorem C5_amended (e d : Bool) (o n : List Char) :
    validate_inputs e d o n = Except.ok () ↔
      (e = true ∧ d = true ∧ reMatchIp o = true ∧ reMatchIp n = true ∧ o ≠ n) := by
  unfold validate_inputs
  split_ifs with h1 h2 h3 h4 h5 <;> simp_all

/-- Claim C6 (confirmed): if validation passes and no file in the tree has
a configured extension, the run exits 0 with the zero-files warning, all
three counters are zero, and no filesystem write occurs. -/
theorem C6_no_matching_files (cfg : Config) (env : Env) (fs : FS)
    (hval : validate_inputs env.dirExists env.dirIsDir cfg.old_ip cfg.new_ip = Except.ok ())
    (hnone : ∀ pb ∈ fs.files, extMatches cfg.extensions pb.1 = false) :
    run cfg env fs = ⟨fs, ⟨0, 0, 0⟩, 0, true⟩ := by
  apply run_no_targets cfg env fs hval
  unfold find_target_files
  have hfil : fs.files.filter (fun pb => extMatches cfg.extensions pb.1) = [] := by
    rw [List.filter_eq_nil_iff]
    intro pb hpb
    simp [hnone pb hpb]
  rw [hfil]
  rfl

/-- Claim C6, witness: a valid configuration over a tree containing only
`b.txt` processes nothing, writes nothing, and exits 0 with a warning. -/
theorem C6_witness :
    validate_inputs envOk.dirExists envOk.dirIsDir cfgSpec.old_ip cfgSpec.new_ip =
      Except.ok () ∧
    (∀ pb ∈ fsOnlyTxt.files, extMatches cfgSpec.extensions pb.1 = false) ∧
    run cfgSpec envOk fsOnlyTxt = ⟨fsOnlyTxt, ⟨0, 0, 0⟩, 0, true⟩ :=
  ⟨by decide, by decide, C6_no_matching_files cfgSpec envOk fsOnlyTxt (by decide) (by decide)⟩

/-- Claim C7 (confirmed): whenever a processed file's content changes, the
amount added to `replacements_made` is the number of occurrences of the new
IP in the post-replacement content minus the number already present in the
original content, in every branch (dry run, backup failure, write failure,
or successful write). -/
theorem C7_replacement_count (cfg : Config) (codec : Codec) (errs : Errs) (p : Path)
    (fs : FS) (st : Stats) (b : Bytes)
    (hrf : errs.readFails p = false) (hread : fs.read? p = some b)
    (hch : replaceAll cfg.old_ip cfg.new_ip (codec.decode b) ≠ codec.decode b) :
    (process_file cfg codec errs p (fs, st)).2.replacements_made =
      st.replacements_made +
        ((countOcc cfg.new_ip (replaceAll cfg.old_ip cfg.new_ip (codec.decode b)) : Int) -
         (countOcc cfg.new_ip (codec.decode b) : Int)) := by
  by_cases hdry : cfg.dry_run = true
  · rw [process_file_dry cfg codec errs p fs st b hrf hread hch hdry]
  · simp only [Bool.not_eq_true] at hdry
    by_cases hnbf : cfg.backup = true ∧ errs.backupFails p = true
    · rw [process_file_backup_fail cfg codec errs p fs st b hrf hread hch hdry hnbf.1 hnbf.2]
    · by_cases hwf : errs.writeFails p = true
      · rw [process_file_write_fail cfg codec errs p fs st b hrf hread hch hdry hnbf hwf]
      · simp only [Bool.not_eq_true] at hwf
        rw [process_file_success cfg codec errs p fs st b hrf hread hch hdry hnbf hwf]

/-- Claim C7, witness: on the spec's concrete file the added count is 1. -/
theorem C7_witness :
    replaceAll cfgSpec.old_ip cfgSpec.new_ip
        (asciiCodec.decode (encodeAscii "Server at 10.0.0.1 ready")) ≠
      asciiCodec.decode (encodeAscii "Server at 10.0.0.1 ready") ∧
    (process_file cfgSpec asciiCodec Errs.none "a.html".toList
        (fsSpec, ⟨0, 0, 0⟩)).2.replacements_made = 1 :=
  ⟨by decide,
   C7_replacement_count cfgSpec asciiCodec Errs.none "a.html".toList fsSpec ⟨0, 0, 0⟩
     (encodeAscii "Server at 10.0.0.1 ready") rfl (by decide) (by decide)⟩

/-- Claim C9 (confirmed): every constructed configuration has a non-empty
extension list whose entries are non-empty, start with a dot and are fixed
points of ASCII lower-casing; passing no list or an empty list falls back
to the default `['.html', '.htm']`. -/
theorem C9_extensions_invariant (o n : List Char) (e : Option (List (List Char)))
    (b d : Bool) :
    (initConfig o n e b d).extensions ≠ [] ∧
    (∀ x ∈ (initConfig o n e b d).extensions,
       x ≠ [] ∧ x.head? = some '.' ∧ x.map Char.toLower = x) ∧
    (initConfig o n none b d).extensions = defaultExtensions ∧
    (initConfig o n (some []) b d).extensions = defaultExtensions := by
  refine ⟨?_, ?_, rfl, rfl⟩
  · show normalizeExtensions e ≠ []
    cases e with
    | none => decide
    | some l =>
      by_cases hl : l = []
      · subst hl
        decide
      · simp only [normalizeExtensions]
        rw [if_neg hl]
        simp [hl]
  · intro x hx
    have hx2 : x ∈ normalizeExtensions e := hx
    simp only [normalizeExtensions] at hx2
    rw [List.mem_map] at hx2
    obtain ⟨y, hy, hxy⟩ := hx2
    rw [List.mem_map] at hy
    obtain ⟨z, _, hyz⟩ := hy
    have hyd : ∃ t, y = '.' :: t := by
      rw [← hyz]
      unfold ensureDot
      by_cases hz : z.head? = some '.'
      · rw [if_pos hz]
        cases z with
        | nil => simp at hz
        | cons c t =>
          simp only [List.head?] at hz
          injection hz with hz
          exact ⟨t, by rw [hz]⟩
      · rw [if_neg hz]
        exact ⟨z, rfl⟩
    obtain ⟨t, rfl⟩ := hyd
    subst hxy
    refine ⟨by simp, ?_, ?_⟩
    · simp only [List.map_cons, List.head?_cons]
      decide
    · rw [List.map_map]
      have hcomp : Char.toLower ∘ Char.toLower = Char.toLower :=
        funext char_toLower_toLower
      rw [hcomp]

/-- Claim C4 (confirmed): in dry-run mode the run performs no filesystem
write of any kind (the final filesystem is the initial one), and any file
whose content would change is still counted in `files_modified` with its
replacement count added to `replacements_made`. -/
theorem C4_dry_run (cfg : Config) (hdry : cfg.dry_run = true) :
    (∀ env fs, (run cfg env fs).fs = fs) ∧
    (∀ (codec : Codec) (errs : Errs) (p : Path) (fs : FS) (st : Stats) (b : Bytes),
       errs.readFails p = false → fs.read? p = some b →
       replaceAll cfg.old_ip cfg.new_ip (codec.decode b) ≠ codec.decode b →
       process_file cfg codec errs p (fs, st) =
         (fs, ⟨st.files_processed + 1, st.files_modified + 1,
               st.replacements_made +
                 ((countOcc cfg.new_ip
                     (replaceAll cfg.old_ip cfg.new_ip (codec.decode b)) : Int) -
                  (countOcc cfg.new_ip (codec.decode b) : Int))⟩)) := by
  have hpf : ∀ (codec : Codec) (errs : Errs) (p : Path) (s : FS × Stats),
      (process_file cfg codec errs p s).1 = s.1 := by
    intro codec errs p s
    obtain ⟨fs, st⟩ := s
    by_cases hrf : errs.readFails p = true
    · rw [process_file_read_fail _ _ _ _ _ _ hrf]
    · simp only [Bool.not_eq_true] at hrf
      cases hread : fs.read? p with
      | none => rw [process_file_not_found _ _ _ _ _ _ hrf hread]
      | some b =>
        by_cases hch : replaceAll cfg.old_ip cfg.new_ip (codec.decode b) = codec.decode b
        · rw [process_file_unchanged _ _ _ _ _ _ _ hrf hread hch]
        · rw [process_file_dry _ _ _ _ _ _ _ hrf hread hch hdry]
  refine ⟨?_, ?_⟩
  · intro env fs
    have hpfs : ∀ (targets : List Path) (s : FS × Stats),
        (processFiles cfg env.codec env.errs targets s).1 = s.1 := by
      intro targets
      induction targets with
      | nil => intro s; rfl
      | cons p rest ih =>
        intro s
        rw [processFiles_cons, ih, hpf]
    cases hv : validate_inputs env.dirExists env.dirIsDir cfg.old_ip cfg.new_ip with
    | error e => rw [run_validate_error cfg env fs e hv]
    | ok u =>
      cases u
      cases ht : find_target_files cfg.extensions fs with
      | nil => rw [run_no_targets cfg env fs hv ht]
      | cons p rest =>
        rw [run_targets cfg env fs p rest hv ht]
        exact hpfs (p :: rest) (fs, ⟨0, 0, 0⟩)
  · intro codec errs p fs st b hrf hread hch
    exact process_file_dry cfg codec errs p fs st b hrf hread hch hdry

/-- Claim C4, witness: a concrete dry run leaves the tree untouched while
counting the would-be modification. -/
theorem C4_witness :
    cfgDry.dry_run = true ∧
    (run cfgDry envOk fsTwo).fs = fsTwo ∧
    process_file cfgDry asciiCodec Errs.none "a.html".toList (fsTwo, ⟨0, 0, 0⟩) =
      (fsTwo, ⟨1, 1, 1⟩) :=
  ⟨rfl, (C4_dry_run cfgDry rfl).1 envOk fsTwo,
   (C4_dry_run cfgDry rfl).2 asciiCodec Errs.none "a.html".toList fsTwo ⟨0, 0, 0⟩
     (encodeAscii "x 1.2.3.4") rfl (by decide) (by decide)⟩

theorem backupPath_ne (p : Path) : backupPath p ≠ p := by
  intro h
  have hlen := congrArg List.length h
  rw [backupPath, List.length_append] at hlen
  have h4 : (".bak".toList).length = 4 := rfl
  omega

theorem process_file_success_backup (cfg : Config) (codec : Codec) (errs : Errs) (p : Path)
    (fs : FS) (st : Stats) (b : Bytes)
    (hrf : errs.readFails p = false) (hread : fs.read? p = some b)
    (hch : replaceAll cfg.old_ip cfg.new_ip (codec.decode b) ≠ codec.decode b)
    (hdry : cfg.dry_run = false) (hb : cfg.backup = true)
    (hbf : errs.backupFails p = false) (hwf : errs.writeFails p = false) :
    process_file cfg codec errs p (fs, st) =
      ((fs.write (backupPath p) b).write p
         (codec.encode (replaceAll cfg.old_ip cfg.new_ip (codec.decode b))),
       ⟨st.files_processed + 1, st.files_modified + 1,
        st.replacements_made +
          ((countOcc cfg.new_ip (replaceAll cfg.old_ip cfg.new_ip (codec.decode b)) : Int) -
           (countOcc cfg.new_ip (codec.decode b) : Int))⟩) := by
  simp [process_file, backup_file, hrf, hread, hch, hdry, hb, hbf, hwf]

/-- Claim C1, counterexample: with old IP `1.1.1.1`, new IP `11.1.1.1` and
a discovered file whose content `11.1.1.1` contains the old IP exactly
once, the non-dry-run invocation with backups modifies the file but
reports replacements_made = 0, not 1: the replacement's result
`111.1.1.1` holds exactly as many occurrences of the new IP as the
original did. -/
theorem C1_counterexample :
    countOcc cfgOverlap.old_ip (asciiCodec.decode (encodeAscii "11.1.1.1")) = 1 ∧
    (run cfgOverlap envOk fsOverlap).stats.files_modified = 1 ∧
    (run cfgOverlap envOk fsOverlap).stats.replacements_made = 0 :=
  ⟨by decide, by decide, by decide⟩

/-- Claim C1 (amended): for a discovered file containing the old IP at
least once (here exactly once), a validated non-dry-run invocation with
backups enabled and no IO failure rewrites the file with all occurrences
replaced, creates a sibling `.bak` holding the original raw bytes, leaves
every other path untouched, and reports files_processed = 1,
files_modified = 1 and replacements_made equal to the difference in
new-IP occurrence counts (which is 1 for ordinary content such as the
spec's concrete scenario, but not in general). -/
theorem C1_amended (cfg : Config) (env : Env) (fs : FS) (p : Path) (b : Bytes)
    (hback : cfg.backup = true) (hdry : cfg.dry_run = false)
    (herr : env.errs = Errs.none)
    (hval : validate_inputs env.dirExists env.dirIsDir cfg.old_ip cfg.new_ip = Except.ok ())
    (htgt : find_target_files cfg.extensions fs = [p])
    (hread : fs.read? p = some b)
    (honce : countOcc cfg.old_ip (env.codec.decode b) = 1)
    (hne : cfg.old_ip ≠ cfg.new_ip) :
    (run cfg env fs).exitCode = 0 ∧
    (run cfg env fs).fs.read? p =
      some (env.codec.encode (replaceAll cfg.old_ip cfg.new_ip (env.codec.decode b))) ∧
    (run cfg env fs).fs.read? (backupPath p) = some b ∧
    (∀ q, q ≠ p → q ≠ backupPath p → (run cfg env fs).fs.read? q = fs.read? q) ∧
    (run cfg env fs).stats =
      ⟨1, 1, (countOcc cfg.new_ip (replaceAll cfg.old_ip cfg.new_ip (env.codec.decode b)) : Int) -
             (countOcc cfg.new_ip (env.codec.decode b) : Int)⟩ := by
  have hold_ne : cfg.old_ip ≠ [] := by
    intro h0
    rw [h0, countOcc_empty_pat] at honce
    exact absurd honce (by decide)
  have hch : replaceAll cfg.old_ip cfg.new_ip (env.codec.decode b) ≠ env.codec.decode b :=
    replaceAll_ne _ _ _ hold_ne hne (by rw [honce]; exact Nat.zero_lt_one)
  have hrf : env.errs.readFails p = false := by rw [herr]; rfl
  have hbf : env.errs.backupFails p = false := by rw [herr]; rfl
  have hwf : env.errs.writeFails p = false := by rw [herr]; rfl
  have hrun := run_targets cfg env fs p [] hval htgt
  have hps : processFiles cfg env.codec env.errs [p] (fs, ⟨0, 0, 0⟩) =
      process_file cfg env.codec env.errs p (fs, ⟨0, 0, 0⟩) := rfl
  have hproc := process_file_success_backup cfg env.codec env.errs p fs ⟨0, 0, 0⟩ b
    hrf hread hch hdry hback hbf hwf
  rw [hrun, hps, hproc]
  refine ⟨rfl, ?_, ?_, ?_, by simp⟩
  · exact FS.read?_write_self _ p _
  · rw [FS.read?_write_ne _ p _ (backupPath p) (backupPath_ne p)]
    exact FS.read?_write_self fs (backupPath p) b
  · intro q hqp hqbak
    rw [FS.read?_write_ne _ p _ q hqp, FS.read?_write_ne fs (backupPath p) b q hqbak]

/-- Claim C1, witness: the spec's concrete scenario -- `a.html` is
rewritten, `a.html.bak` holds the original, `b.txt` is untouched, and the
summary is files_processed = 1, files_modified = 1, replacements_made = 1. -/
theorem C1_witness :
    countOcc cfgSpec.old_ip (envOk.codec.decode (encodeAscii "Server at 10.0.0.1 ready")) = 1 ∧
    (run cfgSpec envOk fsSpec).exitCode = 0 ∧
    (run cfgSpec envOk fsSpec).fs.read? "a.html".toList =
      some (encodeAscii "Server at 10.0.0.2 ready") ∧
    (run cfgSpec envOk fsSpec).fs.read? (backupPath "a.html".toList) =
      some (encodeAscii "Server at 10.0.0.1 ready") ∧
    (run cfgSpec envOk fsSpec).fs.read? "b.txt".toList = fsSpec.read? "b.txt".toList ∧
    (run cfgSpec envOk fsSpec).stats = ⟨1, 1, 1⟩ := by
  have h := C1_amended cfgSpec envOk fsSpec "a.html".toList
    (encodeAscii "Server at 10.0.0.1 ready") rfl rfl rfl (by decide) (by decide)
    (by decide) (by decide) (by decide)
  exact ⟨by decide, h.1, h.2.1, h.2.2.1, h.2.2.2.1 "b.txt".toList (by decide) (by decide),
    h.2.2.2.2⟩

/-- Claim C2, counterexample: both `a.html` and `b.html` are discovered,
the write of `a.html` fails, the run continues and modifies `b.html`, but
files_processed ends at 1, not 2: the errored file is not counted because
the increment is the last statement of the `try` block. -/
theorem C2_counterexample :
    (find_target_files cfgPlain.extensions fsTwo).length = 2 ∧
    (run cfgPlain envWriteA fsTwo).stats.files_processed = 1 ∧
    (run cfgPlain envWriteA fsTwo).stats.files_modified = 2 :=
  ⟨by decide, by decide, by decide⟩

/-- Claim C2 (amended): every per-file error (read failure, missing file,
backup-creation failure, write failure) is caught and the loop simply
continues with the next file, but `files_processed` is NOT incremented for
the errored file: the `files_processed += 1` at the end of the `try` block
is skipped when any step raises. -/
theorem C2_amended (cfg : Config) (codec : Codec) (errs : Errs) (fs : FS) (st : Stats)
    (p : Path)
    (herr : errs.readFails p = true ∨
            fs.read? p = none ∨
            (∃ b, fs.read? p = some b ∧ errs.readFails p = false ∧
              replaceAll cfg.old_ip cfg.new_ip (codec.decode b) ≠ codec.decode b ∧
              cfg.dry_run = false ∧ cfg.backup = true ∧ errs.backupFails p = true) ∨
            (∃ b, fs.read? p = some b ∧ errs.readFails p = false ∧
              replaceAll cfg.old_ip cfg.new_ip (codec.decode b) ≠ codec.decode b ∧
              cfg.dry_run = false ∧ errs.writeFails p = true ∧
              ¬(cfg.backup = true ∧ errs.backupFails p = true))) :
    (process_file cfg codec errs p (fs, st)).2.files_processed = st.files_processed ∧
    (∀ (rest : List Path) (s0 : FS × Stats),
       processFiles cfg codec errs (p :: rest) s0 =
         processFiles cfg codec errs rest (process_file cfg codec errs p s0)) := by
  refine ⟨?_, fun rest s0 => rfl⟩
  rcases herr with h | h | ⟨b, h1, h2, h3, h4, h5, h6⟩ | ⟨b, h1, h2, h3, h4, h5, h6⟩
  · rw [process_file_read_fail _ _ _ _ _ _ h]
  · by_cases hrf : errs.readFails p = true
    · rw [process_file_read_fail _ _ _ _ _ _ hrf]
    · simp only [Bool.not_eq_true] at hrf
      rw [process_file_not_found _ _ _ _ _ _ hrf h]
  · rw [process_file_backup_fail _ _ _ _ _ _ _ h2 h1 h3 h4 h5 h6]
  · rw [process_file_write_fail _ _ _ _ _ _ _ h2 h1 h3 h4 h6 h5]

/-- Claim C2, witness: a read failure on `a.html` leaves files_processed
unchanged while the loop moves on to the remaining files. -/
theorem C2_witness :
    errsReadA.readFails "a.html".toList = true ∧
    (process_file cfgPlain asciiCodec errsReadA "a.html".toList
        (fsTwo, ⟨0, 0, 0⟩)).2.files_processed = 0 ∧
    processFiles cfgPlain asciiCodec errsReadA ["a.html".toList, "b.html".toList]
        (fsTwo, ⟨0, 0, 0⟩) =
      processFiles cfgPlain asciiCodec errsReadA ["b.html".toList]
        (process_file cfgPlain asciiCodec errsReadA "a.html".toList (fsTwo, ⟨0, 0, 0⟩)) := by
  have h := C2_amended cfgPlain asciiCodec errsReadA fsTwo ⟨0, 0, 0⟩ "a.html".toList
    (Or.inl (by decide))
  exact ⟨by decide, h.1, h.2 ["b.html".toList] (fsTwo, ⟨0, 0, 0⟩)⟩

/-- Claim C3, counterexample: old IP `1.1.1.1`, new IP `2.2.2.1`, content
`1.1.1.1.1.1.1`.  The first pass produces `2.2.2.1.1.1.1`, which still
contains the old IP, so the second run with the same pair reports
files_modified = 1, not 0. -/
theorem C3_counterexample :
    (run cfgRecreate envOk fsRecreate).stats.files_modified = 1 ∧
    (run cfgRecreate envOk (run cfgRecreate envOk fsRecreate).fs).stats.files_modified = 1 :=
  ⟨by decide, by decide⟩

/-- Claim C3 (amended): a run over files that contain no occurrence of the
old IP modifies nothing and leaves the filesystem untouched; hence a second
run is a no-op exactly when the first pass removed every occurrence, which
replacement does not always do (a replacement can recreate the old IP
against the adjacent original text). -/
theorem C3_amended (cfg : Config) (env : Env) (fs : FS)
    (hfree : ∀ pb ∈ fs.files, countOcc cfg.old_ip (env.codec.decode pb.2) = 0) :
    (run cfg env fs).stats.files_modified = 0 ∧ (run cfg env fs).fs = fs := by
  have hpf : ∀ (p : Path) (st : Stats),
      process_file cfg env.codec env.errs p (fs, st) =
        (fs, (process_file cfg env.codec env.errs p (fs, st)).2) ∧
      (process_file cfg env.codec env.errs p (fs, st)).2.files_modified =
        st.files_modified := by
    intro p st
    by_cases hrf : env.errs.readFails p = true
    · rw [process_file_read_fail _ _ _ _ _ _ hrf]
      exact ⟨rfl, rfl⟩
    · simp only [Bool.not_eq_true] at hrf
      cases hread : fs.read? p with
      | none =>
        rw [process_file_not_found _ _ _ _ _ _ hrf hread]
        exact ⟨rfl, rfl⟩
      | some b =>
        have hzero := hfree (p, b) (FS.read?_mem fs p b hread)
        have hsame : replaceAll cfg.old_ip cfg.new_ip (env.codec.decode b) =
            env.codec.decode b := replaceAll_of_countOcc_zero _ _ _ hzero
        rw [process_file_unchanged _ _ _ _ _ _ _ hrf hread hsame]
        exact ⟨rfl, rfl⟩
  have hpfs : ∀ (targets : List Path) (st : Stats),
      (processFiles cfg env.codec env.errs targets (fs, st)).1 = fs ∧
      (processFiles cfg env.codec env.errs targets (fs, st)).2.files_modified =
        st.files_modified := by
    intro targets
    induction targets with
    | nil => intro st; exact ⟨rfl, rfl⟩
    | cons p rest ih =>
      intro st
      rw [processFiles_cons, (hpf p st).1]
      obtain ⟨ih1, ih2⟩ := ih (process_file cfg env.codec env.errs p (fs, st)).2
      exact ⟨ih1, by rw [ih2, (hpf p st).2]⟩
  cases hv : validate_inputs env.dirExists env.dirIsDir cfg.old_ip cfg.new_ip with
  | error e =>
    rw [run_validate_error cfg env fs e hv]
    exact ⟨rfl, rfl⟩
  | ok u =>
    cases u
    cases ht : find_target_files cfg.extensions fs with
    | nil =>
      rw [run_no_targets cfg env fs hv ht]
      exact ⟨rfl, rfl⟩
    | cons p rest =>
      rw [run_targets cfg env fs p rest hv ht]
      obtain ⟨h1, h2⟩ := hpfs (p :: rest) ⟨0, 0, 0⟩
      exact ⟨h2, h1⟩

/-- Claim C3, witness: a run over a file free of the old IP reports zero
modified files and leaves the tree untouched. -/
theorem C3_witness :
    (∀ pb ∈ fsClean.files, countOcc cfgRecreate.old_ip (envOk.codec.decode pb.2) = 0) ∧
    (run cfgRecreate envOk fsClean).stats.files_modified = 0 ∧
    (run cfgRecreate envOk fsClean).fs = fsClean := by
  have h := C3_amended cfgRecreate envOk fsClean (by decide)
  exact ⟨by decide, h.1, h.2⟩

/-- Claim C8 (confirmed): when backup creation fails, or the write-back
fails after the change was detected, `files_modified` and
`replacements_made` keep their increments while `files_processed` does not
advance and the file's on-disk content is unchanged -- so `files_modified`
can exceed both the number of files actually rewritten and
`files_processed`. -/
theorem C8_error_after_count (cfg : Config) (codec : Codec) (errs : Errs) (p : Path)
    (fs : FS) (st : Stats) (b : Bytes)
    (hrf : errs.readFails p = false) (hread : fs.read? p = some b)
    (hch : replaceAll cfg.old_ip cfg.new_ip (codec.decode b) ≠ codec.decode b)
    (hdry : cfg.dry_run = false)
    (herr : (cfg.backup = true ∧ errs.backupFails p = true) ∨
            (errs.writeFails p = true ∧ ¬(cfg.backup = true ∧ errs.backupFails p = true))) :
    (process_file cfg codec errs p (fs, st)).2.files_modified = st.files_modified + 1 ∧
    (process_file cfg codec errs p (fs, st)).2.replacements_made =
      st.replacements_made +
        ((countOcc cfg.new_ip (replaceAll cfg.old_ip cfg.new_ip (codec.decode b)) : Int) -
         (countOcc cfg.new_ip (codec.decode b) : Int)) ∧
    (process_file cfg codec errs p (fs, st)).2.files_processed = st.files_processed ∧
    (process_file cfg codec errs p (fs, st)).1.read? p = fs.read? p := by
  rcases herr with ⟨hb, hbf⟩ | ⟨hwf, hnbf⟩
  · rw [process_file_backup_fail _ _ _ _ _ _ _ hrf hread hch hdry hb hbf]
    exact ⟨rfl, rfl, rfl, rfl⟩
  · rw [process_file_write_fail _ _ _ _ _ _ _ hrf hread hch hdry hnbf hwf]
    refine ⟨rfl, rfl, rfl, ?_⟩
    by_cases hb : cfg.backup = true
    · rw [if_pos hb]
      exact FS.read?_write_ne fs (backupPath p) b p (fun h => backupPath_ne p h.symm)
    · rw [if_neg hb]

/-- Claim C8, witness: with a backup failure on `a.html` and fresh
counters, files_modified ends at 1 while files_processed stays 0 and the
file is unchanged. -/
theorem C8_witness :
    (cfgPlainBak.backup = true ∧ errsBackupA.backupFails "a.html".toList = true) ∧
    (process_file cfgPlainBak asciiCodec errsBackupA "a.html".toList
        (fsTwo, ⟨0, 0, 0⟩)).2.files_modified = 1 ∧
    (process_file cfgPlainBak asciiCodec errsBackupA "a.html".toList
        (fsTwo, ⟨0, 0, 0⟩)).2.files_processed = 0 ∧
    (process_file cfgPlainBak asciiCodec errsBackupA "a.html".toList
        (fsTwo, ⟨0, 0, 0⟩)).1.read? "a.html".toList = fsTwo.read? "a.html".toList := by
  have h := C8_error_after_count cfgPlainBak asciiCodec errsBackupA "a.html".toList
    fsTwo ⟨0, 0, 0⟩ (encodeAscii "x 1.2.3.4") rfl (by decide) (by decide) rfl
    (Or.inl ⟨rfl, by decide⟩)
  exact ⟨⟨rfl, by decide⟩, h.1, h.2.2.1, h.2.2.2⟩

/-- Claim C10 (confirmed): for every codec -- however lossy its decoder --
when backups are enabled, the run is not dry and the backup step succeeds,
the `.bak` file receives exactly the original raw bytes of the file, copied
before the overwrite (and independent of whether the write-back then
succeeds). -/
theorem C10_backup_raw_bytes (cfg : Config) (codec : Codec) (errs : Errs) (p : Path)
    (fs : FS) (st : Stats) (b : Bytes)
    (hb : cfg.backup = true) (hdry : cfg.dry_run = false)
    (hrf : errs.readFails p = false) (hread : fs.read? p = some b)
    (hbf : errs.backupFails p = false)
    (hch : replaceAll cfg.old_ip cfg.new_ip (codec.decode b) ≠ codec.decode b) :
    (process_file cfg codec errs p (fs, st)).1.read? (backupPath p) = some b := by
  have hnbf : ¬(cfg.backup = true ∧ errs.backupFails p = true) := by
    rintro ⟨_, h2⟩
    rw [hbf] at h2
    exact absurd h2 (by decide)
  by_cases hwf : errs.writeFails p = true
  · rw [process_file_write_fail _ _ _ _ _ _ _ hrf hread hch hdry hnbf hwf]
    rw [if_pos hb]
    exact FS.read?_write_self fs (backupPath p) b
  · simp only [Bool.not_eq_true] at hwf
    rw [process_file_success _ _ _ _ _ _ _ hrf hread hch hdry hnbf hwf]
    rw [if_pos hb]
    rw [FS.read?_write_ne _ p _ (backupPath p) (backupPath_ne p)]
    exact FS.read?_write_self fs (backupPath p) b

/-- Claim C10, witness: a decoder that drops the undecodable byte 200 still
yields a backup holding the original bytes, byte 200 included. -/
theorem C10_witness :
    lossyCodec.decode (200 :: encodeAscii " 1.2.3.4") = " 1.2.3.4".toList ∧
    (process_file cfgPlainBak lossyCodec Errs.none "a.html".toList
        (fsHighByte, ⟨0, 0, 0⟩)).1.read? (backupPath "a.html".toList) =
      some (200 :: encodeAscii " 1.2.3.4") := by
  have h := C10_backup_raw_bytes cfgPlainBak lossyCodec Errs.none "a.html".toList
    fsHighByte ⟨0, 0, 0⟩ (200 :: encodeAscii " 1.2.3.4") rfl rfl rfl (by decide) rfl
    (by decide)
  exact ⟨by decide, h⟩

end LinkUpdater
